import Mathlib

/-!
Verification of the notifying, transactionally-consistent key-value dictionary
collection specified for seanpm2001/realm-js.  The repository fragment under
src/ contains only the JS-binding glue (IOCollectionAccessor, DictionaryAdapter)
and a test harness; the core components (KeyedValueStore, ChangeTracker,
NotificationScheduler, observer state machine, Logger) are external to the
fragment and are modelled here from the specification's words.
-/

set_option autoImplicit false

namespace RealmDict

/-- Modelled from the spec: `DynamicValue` is a closed tagged union over
{null, bool, int64, double, string, binary, timestamp,
embedded-object-reference, link-to-object}.  The `int64` payload is an
integer reduced modulo 2^64 by the store boundary; the `double` payload is
kept as its 64-bit pattern (a `Nat`) since the core only stores, returns and
compares values by tag and content, never performing float arithmetic. -/
inductive DynamicValue where
  | null
  | bool (b : Bool)
  | int64 (i : Int)
  | double (bits : Nat)
  | string (s : String)
  | binary (bytes : List Nat)
  | timestamp (seconds : Int) (nanoseconds : Nat)
  | embeddedObjectRef (objId : Nat)
  | linkToObject (objId : Nat)
  deriving DecidableEq, Repr

/-- An entry of a snapshot: a key paired with its value payload.  The spec's
tombstone marker is modelled as absence: every spec-visible operation
(`get`, `keys`, the ChangeTracker diff) treats a tombstoned entry exactly as
an absent one, so a snapshot holds its live entries. -/
abbrev Entry := String × DynamicValue

/-- Key lookup in a snapshot's entry list: first entry whose key matches. -/
def lookupKey : List Entry → String → Option DynamicValue
  | [], _ => none
  | (k1, v1) :: rest, key => if key = k1 then some v1 else lookupKey rest key

/-- The keys of a snapshot's entry list. -/
def keysOf (l : List Entry) : List String := l.map Prod.fst

/-- Entry lists are maintained key-sorted (byte-wise / lexicographic key
order), as the spec requires for the linear-merge diff. -/
def SortedKeys (l : List Entry) : Prop :=
  List.Pairwise (fun a b : Entry => a.1 < b.1) l

/-- Insert-or-overwrite into a key-sorted entry list, keeping it sorted. -/
def insertSorted (k : String) (v : DynamicValue) : List Entry → List Entry
  | [] => [(k, v)]
  | (k1, v1) :: rest =>
    if k < k1 then (k, v) :: (k1, v1) :: rest
    else if k = k1 then (k, v) :: rest
    else (k1, v1) :: insertSorted k v rest

/-- Remove a key from an entry list (tombstoning, modelled as removal). -/
def eraseKey (k : String) (l : List Entry) : List Entry :=
  l.filter (fun e => e.1 ≠ k)

/-- Modelled from the spec: a ChangeSet is three key-sets
`{insertions, modifications, deletions}` computed between two snapshots of
the same collection identifier. -/
structure ChangeSet where
  insertions : List String
  modifications : List String
  deletions : List String
  deriving DecidableEq, Repr

/-- The empty ChangeSet. -/
def ChangeSet.empty : ChangeSet := ⟨[], [], []⟩

/-- Modelled from the spec: the ChangeTracker's algorithm — a linear merge
over the two key-sorted entry lists of `prior` and `current`: a key present
only in `current` is an insertion; present in both with differing value
payload (deep equality by tag and content, i.e. `DecidableEq DynamicValue`)
is a modification; present only in `prior` is a deletion. -/
def diffMerge : List Entry → List Entry → ChangeSet
  | [], [] => ChangeSet.empty
  | [], (k2, _) :: cs =>
    let r := diffMerge [] cs
    { r with insertions := k2 :: r.insertions }
  | (k1, _) :: ps, [] =>
    let r := diffMerge ps []
    { r with deletions := k1 :: r.deletions }
  | (k1, v1) :: ps, (k2, v2) :: cs =>
    if k1 = k2 then
      let r := diffMerge ps cs
      if v1 = v2 then r
      else { r with modifications := k1 :: r.modifications }
    else if k1 < k2 then
      let r := diffMerge ps ((k2, v2) :: cs)
      { r with deletions := k1 :: r.deletions }
    else
      let r := diffMerge ((k1, v1) :: ps) cs
      { r with insertions := k2 :: r.insertions }
  termination_by p c => p.length + c.length

/-- Modelled from the spec: the error taxonomy of §7. -/
inductive StoreError where
  | KeyNotFound
  | ReadOnlyViolation
  | CollectionIdentifierMismatch
  | StaleCollectionReference
  | TypeMismatch
  deriving DecidableEq, Repr

/-- Modelled from the spec: a KeyedValueStore holds its last committed
snapshot and, when a write transaction is open, the transaction's working
snapshot. -/
structure Store where
  committed : List Entry
  txn : Option (List Entry)
  deriving Repr

/-- Open a write transaction: the working snapshot starts as a copy of the
committed one. -/
def Store.beginWrite (s : Store) : Store :=
  { s with txn := some s.committed }

/-- The store's current view: the open transaction's working snapshot when
one is open, the committed snapshot otherwise. -/
def Store.view (s : Store) : List Entry :=
  s.txn.getD s.committed

/-- Modelled from the spec: `get(key) -> DynamicValue`, failing with
`KeyNotFound` if absent — a typed failure, never a silent default. -/
def storeGet (s : Store) (key : String) : Except StoreError DynamicValue :=
  match lookupKey s.view key with
  | some v => .ok v
  | none => .error .KeyNotFound

/-- Modelled from the spec: `set(key, value)` inserts or overwrites; it must
execute inside an open write transaction and fails with `ReadOnlyViolation`
otherwise. -/
def storeSet (s : Store) (key : String) (value : DynamicValue) :
    Except StoreError Store :=
  match s.txn with
  | none => .error .ReadOnlyViolation
  | some w => .ok { s with txn := some (insertSorted key value w) }

/-- Modelled from the spec: `erase(key)` marks the entry tombstoned (here:
removes it from the working snapshot) and fails with `KeyNotFound` if the key
is absent; a failed erase leaves the store unchanged (the error carries no
new store). Like `set`, it mutates and so requires an open write
transaction. -/
def storeErase (s : Store) (key : String) : Except StoreError Store :=
  match s.txn with
  | none => .error .ReadOnlyViolation
  | some w =>
    match lookupKey w key with
    | none => .error .KeyNotFound
    | some _ => .ok { s with txn := some (eraseKey key w) }

/-- A mutating operation recorded inside one write transaction. -/
inductive Op where
  | set (k : String) (v : DynamicValue)
  | erase (k : String)
  deriving DecidableEq, Repr

/-- The key an operation touches. -/
def Op.key : Op → String
  | .set k _ => k
  | .erase k => k

/-- Apply one operation to a working snapshot.  An erase of an absent key
fails with `KeyNotFound` at the store layer and leaves the snapshot
unchanged, which for the committed result coincides with `eraseKey` being the
identity there. -/
def applyOp (w : List Entry) : Op → List Entry
  | .set k v => insertSorted k v w
  | .erase k => eraseKey k w

/-- Apply a whole transaction's operation sequence to a working snapshot. -/
def applyOps (w : List Entry) (ops : List Op) : List Entry :=
  ops.foldl applyOp w

/-- The keys touched by a transaction's operations. -/
def touchedKeys (ops : List Op) : List String := ops.map Op.key

/-- Modelled from the spec: committing a transaction's operations — the new
committed snapshot is the working snapshot after all operations, and the
ChangeSet is computed by diffing the post-commit snapshot against the
pre-transaction snapshot (never an intermediate state). -/
def commitOps (s : Store) (ops : List Op) : Store × ChangeSet :=
  let w := applyOps s.committed ops
  ({ committed := w, txn := none }, diffMerge s.committed w)

/-- Union of two key-sets (membership union; categories are key-sets, so
duplicates carry no meaning). -/
def unionKeys (a b : List String) : List String :=
  a ++ b.filter (fun k => decide (k ∉ a))

/-- Modelled from the spec: merging a newly computed ChangeSet into a still
outstanding pending one — union of key-sets per category, with deletions
taking precedence over modifications for the same key. -/
def mergeChangeSets (p n : ChangeSet) : ChangeSet :=
  let dels := unionKeys p.deletions n.deletions
  { insertions := unionKeys p.insertions n.insertions
    modifications :=
      (unionKeys p.modifications n.modifications).filter
        (fun k => decide (k ∉ dels))
    deletions := dels }

/-- Modelled from the spec: what the NotificationScheduler does when a new
ChangeSet arrives for an observer: if no delivery is outstanding the
ChangeSet becomes the single pending one; if a prior delivery is still
outstanding the new ChangeSet is merged into it rather than queued
separately. -/
def enqueueChangeSet (pendingQueue : List ChangeSet) (n : ChangeSet) :
    List ChangeSet :=
  match pendingQueue with
  | [] => [n]
  | p :: _ => [mergeChangeSets p n]

/-- Modelled from the spec: the observer state machine
`Idle -> Pending -> Delivering -> Idle`, with `Invalidated` as an absorbing
terminal state reachable from any non-terminal state. -/
inductive ObsStatus where
  | Idle
  | Pending
  | Delivering
  | Invalidated
  deriving DecidableEq, Repr

/-- Events affecting one registered observer token. -/
inductive ObsEvent where
  | enqueue (cs : ChangeSet)
  | deliver
  | unregister
  deriving Repr

/-- One observer's scheduler-side state: its state-machine status, the at
most one pending (possibly merged) ChangeSet, and the ChangeSets actually
delivered to its callback so far. -/
structure ObsState where
  status : ObsStatus
  pending : Option ChangeSet
  delivered : List ChangeSet
  deriving Repr

/-- Modelled from the spec: one scheduler step for one observer.  Enqueue
merges into an outstanding pending ChangeSet; delivery hands the pending
ChangeSet to the callback; unregistering (or invalidating the owning handle)
moves to `Invalidated` immediately and drops any undelivered ChangeSet
silently — no delivery, no error.  `Invalidated` is absorbing: nothing is
enqueued to or delivered for an invalidated token. -/
def obsStep (s : ObsState) : ObsEvent → ObsState
  | .enqueue cs =>
    if s.status = .Invalidated then s
    else
      match s.pending with
      | none => { s with status := .Pending, pending := some cs }
      | some p => { s with pending := some (mergeChangeSets p cs) }
  | .deliver =>
    if s.status = .Invalidated then s
    else
      match s.pending with
      | some cs =>
        { s with status := .Idle, pending := none,
                 delivered := s.delivered ++ [cs] }
      | none => s
  | .unregister =>
    { status := .Invalidated, pending := none, delivered := s.delivered }

/-- Run a sequence of events against one observer's state. -/
def obsRun (s : ObsState) (es : List ObsEvent) : ObsState :=
  es.foldl obsStep s

/-- Events of the per-collection delivery pipeline seen by one observer:
either a commit on the collection (producing the next ChangeSet, identified
by its commit index) or the delivery context draining the pending delta. -/
inductive SchedEvent where
  | commit
  | deliver
  deriving DecidableEq, Repr

/-- Modelled from the spec: the per-observer delivery pipeline for one
collection.  `nextIdx` counts the commits so far (commit `i` is the i-th);
`pendingIdxs` are the commit indices whose (merged) ChangeSet is still
undelivered; `deliveredIdxs` are the commit indices whose changes have been
handed to the observer, in delivery order. -/
structure SchedState where
  nextIdx : Nat
  pendingIdxs : List Nat
  deliveredIdxs : List Nat
  deriving Repr

/-- The scheduler pipeline before any commit. -/
def SchedState.init : SchedState := ⟨0, [], []⟩

/-- Modelled from the spec: on commit the new ChangeSet is merged into the
(at most one) pending delta; on delivery the pending delta is handed over
whole, so its commit indices reach the observer before any later commit's. -/
def schedStep (s : SchedState) : SchedEvent → SchedState
  | .commit =>
    { s with nextIdx := s.nextIdx + 1, pendingIdxs := s.pendingIdxs ++ [s.nextIdx] }
  | .deliver =>
    { s with pendingIdxs := [],
             deliveredIdxs := s.deliveredIdxs ++ s.pendingIdxs }

/-- Run the delivery pipeline over a sequence of commit/deliver events. -/
def schedRun (s : SchedState) (es : List SchedEvent) : SchedState :=
  es.foldl schedStep s

/-- The `IOCollection` interface wrapped by the accessor in
src/src/dictionary/methods/accessors.hpp: a stateful get/set keyed by string,
embedded by explicit state passing (the C++ object's mutable state becomes
the `St` value threaded through `setImpl`). -/
structure IOCollection (Ctx Val St : Type) where
  getImpl : St → Ctx → String → Val
  setImpl : St → Ctx → String → Val → St

/-- `IOCollectionAccessor` from src/src/dictionary/methods/accessors.hpp:
holds a wrapped `IOCollection` (the C++ `IOCollection* dictionary`). -/
structure IOCollectionAccessor (Ctx Val St : Type) where
  dictionary : IOCollection Ctx Val St

/-- `IOCollectionAccessor::get(context, key_name)`: returns
`dictionary->get(context, key_name)`. -/
def IOCollectionAccessor.get {Ctx Val St : Type}
    (a : IOCollectionAccessor Ctx Val St) (st : St) (context : Ctx)
    (key_name : String) : Val :=
  a.dictionary.getImpl st context key_name

/-- `IOCollectionAccessor::set(context, key_name, value)`: invokes
`dictionary->set(context, key_name, value)`. -/
def IOCollectionAccessor.set {Ctx Val St : Type}
    (a : IOCollectionAccessor Ctx Val St) (st : St) (context : Ctx)
    (key_name : String) (value : Val) : St :=
  a.dictionary.setImpl st context key_name value

/-- Modelled from the spec: the logger levels of realm's `LoggerLevel` enum
(logger.hpp is outside the visible fragment; the set of names follows the
realm logger it binds and the values the test in src/src/test/main.cpp
pins). -/
inductive LoggerLevel where
  | all
  | trace
  | debug
  | detail
  | info
  | warn
  | error
  | fatal
  | off
  deriving DecidableEq, Repr

/-- Modelled from the spec: `Logger::get_level` (logger.hpp, outside the
visible fragment) maps a level name to its `LoggerLevel`; the test in
src/src/test/main.cpp pins "all" ↦ all, "debug" ↦ debug, and that an
unrecognized name throws with the message "Bad log level" rather than
returning a default. -/
def get_level (level_name : String) : Except String LoggerLevel :=
  if level_name = "all" then .ok .all
  else if level_name = "trace" then .ok .trace
  else if level_name = "debug" then .ok .debug
  else if level_name = "detail" then .ok .detail
  else if level_name = "info" then .ok .info
  else if level_name = "warn" then .ok .warn
  else if level_name = "error" then .ok .error
  else if level_name = "fatal" then .ok .fatal
  else if level_name = "off" then .ok .off
  else .error "Bad log level"

/-- The level names `get_level` recognizes. -/
def recognizedLevelNames : List String :=
  ["all", "trace", "debug", "detail", "info", "warn", "error", "fatal", "off"]

/-! ### Lookup and sortedness lemmas -/

@[simp]
theorem lookupKey_nil (k : String) : lookupKey [] k = none := rfl

@[simp]
theorem lookupKey_cons (k1 : String) (v1 : DynamicValue) (l : List Entry)
    (k : String) :
    lookupKey ((k1, v1) :: l) k = if k = k1 then some v1 else lookupKey l k :=
  rfl

theorem lookupKey_eq_none_of_forall_ne {l : List Entry} {k : String}
    (h : ∀ e ∈ l, e.1 ≠ k) : lookupKey l k = none := by
  induction l with
  | nil => rfl
  | cons e rest ih =>
    obtain ⟨k1, v1⟩ := e
    have hk : k ≠ k1 := fun hk => h (k1, v1) (List.mem_cons_self _ _) hk.symm
    simpa [hk] using ih fun e he => h e (List.mem_cons_of_mem _ he)

theorem lookupKey_eq_none_of_lt {l : List Entry} {k : String}
    (h : ∀ e ∈ l, k < e.1) : lookupKey l k = none :=
  lookupKey_eq_none_of_forall_ne fun e he => ne_of_gt (h e he)

theorem sortedKeys_cons_lt {k1 : String} {v1 : DynamicValue} {l : List Entry}
    (h : SortedKeys ((k1, v1) :: l)) : ∀ e ∈ l, k1 < e.1 :=
  (List.pairwise_cons.mp h).1

theorem sortedKeys_tail {e : Entry} {l : List Entry}
    (h : SortedKeys (e :: l)) : SortedKeys l :=
  (List.pairwise_cons.mp h).2

/-! ### The ChangeTracker characterization: how `diffMerge` classifies keys -/

theorem diffMerge_mem (k : String) (p c : List Entry) :
    SortedKeys p → SortedKeys c →
    (k ∈ (diffMerge p c).insertions ↔
      lookupKey p k = none ∧ lookupKey c k ≠ none)
    ∧ (k ∈ (diffMerge p c).modifications ↔
      ∃ vp vc, lookupKey p k = some vp ∧ lookupKey c k = some vc ∧ vp ≠ vc)
    ∧ (k ∈ (diffMerge p c).deletions ↔
      lookupKey p k ≠ none ∧ lookupKey c k = none) := by
  induction p, c using diffMerge.induct with
  | case1 =>
    intro _ _
    simp [diffMerge, ChangeSet.empty]
  | case2 k2 v2 cs ih =>
    intro hp hc
    obtain ⟨ih1, ih2, ih3⟩ := ih hp (sortedKeys_tail hc)
    by_cases hk : k = k2 <;>
      simp_all [diffMerge, List.mem_cons]
  | case3 k1 v1 ps ih =>
    intro hp hc
    obtain ⟨ih1, ih2, ih3⟩ := ih (sortedKeys_tail hp) hc
    by_cases hk : k = k1 <;>
      simp_all [diffMerge, List.mem_cons]
  | case4 ps k2 v2 cs ih =>
    intro hp hc
    obtain ⟨ih1, ih2, ih3⟩ := ih (sortedKeys_tail hp) (sortedKeys_tail hc)
    have hps : lookupKey ps k2 = none :=
      lookupKey_eq_none_of_lt (sortedKeys_cons_lt hp)
    have hcs : lookupKey cs k2 = none :=
      lookupKey_eq_none_of_lt (sortedKeys_cons_lt hc)
    by_cases hk : k = k2 <;>
      simp_all [diffMerge, List.mem_cons]
  | case5 v1 ps k2 v2 cs hv ih =>
    intro hp hc
    obtain ⟨ih1, ih2, ih3⟩ := ih (sortedKeys_tail hp) (sortedKeys_tail hc)
    have hps : lookupKey ps k2 = none :=
      lookupKey_eq_none_of_lt (sortedKeys_cons_lt hp)
    have hcs : lookupKey cs k2 = none :=
      lookupKey_eq_none_of_lt (sortedKeys_cons_lt hc)
    by_cases hk : k = k2 <;>
      simp_all [diffMerge, List.mem_cons]
  | case6 k1 v1 ps k2 v2 cs hne hlt ih =>
    intro hp hc
    obtain ⟨ih1, ih2, ih3⟩ := ih (sortedKeys_tail hp) hc
    have hps : lookupKey ps k1 = none :=
      lookupKey_eq_none_of_lt (sortedKeys_cons_lt hp)
    have hcur : lookupKey ((k2, v2) :: cs) k1 = none := by
      refine lookupKey_eq_none_of_forall_ne ?_
      intro e he
      rcases List.mem_cons.mp he with h | h
      · subst h; exact fun h => hne h.symm
      · exact ne_of_gt (lt_trans hlt (sortedKeys_cons_lt hc e h))
    by_cases hk : k = k1 <;>
      simp_all [diffMerge, List.mem_cons]
  | case7 k1 v1 ps k2 v2 cs hne hnlt ih =>
    intro hp hc
    obtain ⟨ih1, ih2, ih3⟩ := ih hp (sortedKeys_tail hc)
    have hlt : k2 < k1 :=
      lt_of_le_of_ne (not_lt.mp hnlt) fun h => hne h.symm
    have hcs : lookupKey cs k2 = none :=
      lookupKey_eq_none_of_lt (sortedKeys_cons_lt hc)
    have hpri : lookupKey ((k1, v1) :: ps) k2 = none := by
      refine lookupKey_eq_none_of_forall_ne ?_
      intro e he
      rcases List.mem_cons.mp he with h | h
      · subst h; exact ne_of_gt hlt
      · exact ne_of_gt (lt_trans hlt (sortedKeys_cons_lt hp e h))
    have hk21 : k2 ≠ k1 := fun h => hne h.symm
    simp only [diffMerge]
    rw [if_neg hne, if_neg hnlt]
    by_cases hk : k = k2 <;>
      simp_all [List.mem_cons]

/-! ### insertSorted and eraseKey lemmas -/

theorem mem_insertSorted {k : String} {v : DynamicValue} {l : List Entry} :
    ∀ e ∈ insertSorted k v l, e = (k, v) ∨ e ∈ l := by
  induction l with
  | nil => simp [insertSorted]
  | cons hd rest ih =>
    obtain ⟨k1, v1⟩ := hd
    intro e he
    simp only [insertSorted] at he
    by_cases h1 : k < k1
    · rw [if_pos h1] at he
      rcases List.mem_cons.mp he with h | h
      · exact Or.inl h
      · exact Or.inr h
    · rw [if_neg h1] at he
      by_cases h2 : k = k1
      · rw [if_pos h2] at he
        rcases List.mem_cons.mp he with h | h
        · exact Or.inl h
        · exact Or.inr (List.mem_cons_of_mem _ h)
      · rw [if_neg h2] at he
        rcases List.mem_cons.mp he with h | h
        · exact Or.inr (h ▸ List.mem_cons_self _ _)
        · rcases ih e h with h' | h'
          · exact Or.inl h'
          · exact Or.inr (List.mem_cons_of_mem _ h')

theorem insertSorted_sorted {l : List Entry} (k : String) (v : DynamicValue)
    (h : SortedKeys l) : SortedKeys (insertSorted k v l) := by
  induction l with
  | nil => simp [insertSorted, SortedKeys]
  | cons hd rest ih =>
    obtain ⟨k1, v1⟩ := hd
    simp only [insertSorted]
    by_cases h1 : k < k1
    · rw [if_pos h1]
      refine List.pairwise_cons.mpr ⟨?_, h⟩
      intro b hb
      rcases List.mem_cons.mp hb with hb | hb
      · exact hb ▸ h1
      · exact lt_trans h1 (sortedKeys_cons_lt h b hb)
    · rw [if_neg h1]
      by_cases h2 : k = k1
      · rw [if_pos h2]
        subst h2
        exact List.pairwise_cons.mpr ⟨sortedKeys_cons_lt h, sortedKeys_tail h⟩
      · rw [if_neg h2]
        have hk1 : k1 < k := lt_of_le_of_ne (not_lt.mp h1) fun hh => h2 hh.symm
        refine List.pairwise_cons.mpr ⟨?_, ih (sortedKeys_tail h)⟩
        intro b hb
        rcases mem_insertSorted b hb with hb | hb
        · exact hb ▸ hk1
        · exact sortedKeys_cons_lt h b hb

theorem lookupKey_insertSorted_self (k : String) (v : DynamicValue)
    (l : List Entry) : lookupKey (insertSorted k v l) k = some v := by
  induction l with
  | nil => simp [insertSorted]
  | cons hd rest ih =>
    obtain ⟨k1, v1⟩ := hd
    simp only [insertSorted]
    by_cases h1 : k < k1
    · rw [if_pos h1]; simp
    · rw [if_neg h1]
      by_cases h2 : k = k1
      · rw [if_pos h2]; simp
      · rw [if_neg h2]; simp [h2, ih]

theorem lookupKey_insertSorted_ne {k k' : String} (v : DynamicValue)
    (l : List Entry) (hne : k' ≠ k) :
    lookupKey (insertSorted k v l) k' = lookupKey l k' := by
  induction l with
  | nil => simp [insertSorted, hne]
  | cons hd rest ih =>
    obtain ⟨k1, v1⟩ := hd
    simp only [insertSorted]
    by_cases h1 : k < k1
    · rw [if_pos h1]; simp [hne]
    · rw [if_neg h1]
      by_cases h2 : k = k1
      · rw [if_pos h2]; subst h2; simp [hne]
      · rw [if_neg h2]; simp [ih]

theorem eraseKey_sorted {l : List Entry} (k : String) (h : SortedKeys l) :
    SortedKeys (eraseKey k l) :=
  List.Pairwise.filter _ h

theorem lookupKey_eraseKey_ne {k k' : String} (l : List Entry)
    (hne : k' ≠ k) : lookupKey (eraseKey k l) k' = lookupKey l k' := by
  induction l with
  | nil => rfl
  | cons hd rest ih =>
    obtain ⟨k1, v1⟩ := hd
    by_cases h1 : k1 = k
    · subst h1
      have e1 : eraseKey k1 ((k1, v1) :: rest) = eraseKey k1 rest := by
        simp [eraseKey, List.filter_cons]
      rw [e1, ih, lookupKey_cons, if_neg hne]
    · have e1 : eraseKey k ((k1, v1) :: rest) = (k1, v1) :: eraseKey k rest := by
        simp [eraseKey, List.filter_cons, h1]
      rw [e1, lookupKey_cons, lookupKey_cons]
      by_cases h2 : k' = k1 <;> simp [h2, ih]

theorem forall_ne_of_lookup_none {l : List Entry} {k : String}
    (h : lookupKey l k = none) : ∀ e ∈ l, e.1 ≠ k := by
  induction l with
  | nil => simp
  | cons hd rest ih =>
    obtain ⟨k1, v1⟩ := hd
    intro e he
    by_cases h1 : k = k1
    · simp [h1] at h
    · rcases List.mem_cons.mp he with he | he
      · exact he ▸ fun hh => h1 hh.symm
      · exact ih (by simpa [h1] using h) e he

theorem eraseKey_of_lookup_none {l : List Entry} {k : String}
    (h : lookupKey l k = none) : eraseKey k l = l := by
  refine List.filter_eq_self.mpr ?_
  intro e he
  simpa using forall_ne_of_lookup_none h e he

theorem eraseKey_insertSorted (k : String) (v : DynamicValue)
    (l : List Entry) : eraseKey k (insertSorted k v l) = eraseKey k l := by
  induction l with
  | nil => simp [insertSorted, eraseKey]
  | cons hd rest ih =>
    obtain ⟨k1, v1⟩ := hd
    simp only [insertSorted]
    by_cases h1 : k < k1
    · rw [if_pos h1]
      simp [eraseKey, List.filter_cons]
    · rw [if_neg h1]
      by_cases h2 : k = k1
      · rw [if_pos h2]
        subst h2
        simp [eraseKey, List.filter_cons]
      · rw [if_neg h2]
        have hk1 : k1 ≠ k := fun hh => h2 hh.symm
        have e1 : eraseKey k ((k1, v1) :: insertSorted k v rest)
            = (k1, v1) :: eraseKey k (insertSorted k v rest) := by
          simp [eraseKey, List.filter_cons, hk1]
        have e2 : eraseKey k ((k1, v1) :: rest)
            = (k1, v1) :: eraseKey k rest := by
          simp [eraseKey, List.filter_cons, hk1]
        rw [e1, e2, ih]

theorem diffMerge_self (l : List Entry) : diffMerge l l = ChangeSet.empty := by
  induction l with
  | nil => simp [diffMerge]
  | cons hd rest ih =>
    obtain ⟨k1, v1⟩ := hd
    simp [diffMerge, ih]

/-! ### Transaction application lemmas -/

theorem applyOp_sorted {w : List Entry} (op : Op) (h : SortedKeys w) :
    SortedKeys (applyOp w op) := by
  cases op with
  | set k v => exact insertSorted_sorted k v h
  | erase k => exact eraseKey_sorted k h

theorem applyOps_sorted {w : List Entry} (ops : List Op) (h : SortedKeys w) :
    SortedKeys (applyOps w ops) := by
  induction ops generalizing w with
  | nil => exact h
  | cons op ops ih => exact ih (applyOp_sorted op h)

theorem lookupKey_applyOp_untouched {w : List Entry} {op : Op} {k : String}
    (h : k ≠ op.key) : lookupKey (applyOp w op) k = lookupKey w k := by
  cases op with
  | set k' v => exact lookupKey_insertSorted_ne v w h
  | erase k' => exact lookupKey_eraseKey_ne w h

theorem lookupKey_applyOps_untouched {w : List Entry} {ops : List Op}
    {k : String} (h : k ∉ touchedKeys ops) :
    lookupKey (applyOps w ops) k = lookupKey w k := by
  induction ops generalizing w with
  | nil => rfl
  | cons op ops ih =>
    have h1 : k ≠ op.key := fun hh => h (hh ▸ List.mem_cons_self _ _)
    have h2 : k ∉ touchedKeys ops := fun hh => h (List.mem_cons_of_mem _ hh)
    calc lookupKey (applyOps (applyOp w op) ops) k
        = lookupKey (applyOp w op) k := ih h2
      _ = lookupKey w k := lookupKey_applyOp_untouched h1

/-! ### Scheduler and observer lemmas -/

theorem mem_unionKeys (a b : List String) (k : String) :
    k ∈ unionKeys a b ↔ k ∈ a ∨ k ∈ b := by
  simp only [unionKeys, List.mem_append, List.mem_filter,
    decide_eq_true_eq]
  by_cases h : k ∈ a <;> simp [h]

/-- The delivery-pipeline invariant: the indices delivered so far followed by
the still pending ones are exactly the commits so far, in commit order. -/
def schedInv (s : SchedState) : Prop :=
  s.deliveredIdxs ++ s.pendingIdxs = List.range s.nextIdx

theorem schedStep_inv {s : SchedState} (e : SchedEvent) (h : schedInv s) :
    schedInv (schedStep s e) := by
  cases e with
  | commit =>
    show s.deliveredIdxs ++ (s.pendingIdxs ++ [s.nextIdx])
      = List.range (s.nextIdx + 1)
    rw [← List.append_assoc, h, ← List.range_succ]
  | deliver =>
    show (s.deliveredIdxs ++ s.pendingIdxs) ++ [] = List.range s.nextIdx
    rw [List.append_nil, h]

theorem schedRun_inv (es : List SchedEvent) {s : SchedState}
    (h : schedInv s) : schedInv (schedRun s es) := by
  induction es generalizing s with
  | nil => exact h
  | cons e es ih => exact ih (schedStep_inv e h)

theorem obsRun_invalidated (es : List ObsEvent) (d : List ChangeSet) :
    obsRun ⟨.Invalidated, none, d⟩ es = ⟨.Invalidated, none, d⟩ := by
  induction es with
  | nil => rfl
  | cons e es ih =>
    have h1 : obsStep ⟨.Invalidated, none, d⟩ e
        = (⟨.Invalidated, none, d⟩ : ObsState) := by
      cases e <;> simp [obsStep]
    show obsRun (obsStep ⟨.Invalidated, none, d⟩ e) es = _
    rw [h1, ih]

/-! ### Claim theorems -/

/-- C1: for every pair of key-sorted snapshots `prior` and `current`, the
ChangeTracker's ChangeSet classifies each key `k` as follows: present only in
`current` → insertion; present in both with value payloads differing under
deep (tag and content) equality → modification; present only in `prior` →
deletion; present in both with equal payloads → in no category. -/
theorem C1_changeTracker_classification (prior current : List Entry)
    (hp : SortedKeys prior) (hc : SortedKeys current) (k : String) :
    (k ∈ (diffMerge prior current).insertions ↔
      lookupKey prior k = none ∧ lookupKey current k ≠ none)
    ∧ (k ∈ (diffMerge prior current).modifications ↔
      ∃ vp vc, lookupKey prior k = some vp ∧ lookupKey current k = some vc
        ∧ vp ≠ vc)
    ∧ (k ∈ (diffMerge prior current).deletions ↔
      lookupKey prior k ≠ none ∧ lookupKey current k = none)
    ∧ (∀ v, lookupKey prior k = some v → lookupKey current k = some v →
        k ∉ (diffMerge prior current).insertions
        ∧ k ∉ (diffMerge prior current).modifications
        ∧ k ∉ (diffMerge prior current).deletions) := by
  obtain ⟨h1, h2, h3⟩ := diffMerge_mem k prior current hp hc
  refine ⟨h1, h2, h3, ?_⟩
  intro v hpv hcv
  refine ⟨?_, ?_, ?_⟩
  · rw [h1]
    simp [hpv]
  · rw [h2]
    rintro ⟨vp, vc, hvp, hvc, hne⟩
    rw [hpv] at hvp
    rw [hcv] at hvc
    cases hvp
    cases hvc
    exact hne rfl
  · rw [h3]
    simp [hcv]

/-- C1 witness: instantiated at `prior = []`,
`current = [("b", null)]`, key `"b"`, which the classification reports as an
insertion. -/
theorem C1_witness :
    "b" ∈ (diffMerge []
      [("b", DynamicValue.null)]).insertions :=
  ((C1_changeTracker_classification [] [("b", DynamicValue.null)]
      List.Pairwise.nil (List.pairwise_singleton _ _) "b").1).mpr
    ⟨rfl, by simp⟩

/-- C2: for every sequence of set/erase operations committed in one
transaction, the resulting ChangeSet's three categories are pairwise
disjoint, every key in `deletions` existed in the prior snapshot, and the
union of the three key-sets is a subset of the keys touched by the
transaction's operations. -/
theorem C2_changeSet_invariants (s : Store) (ops : List Op)
    (hs : SortedKeys s.committed) :
    ((commitOps s ops).2.insertions.Disjoint (commitOps s ops).2.modifications)
    ∧ ((commitOps s ops).2.insertions.Disjoint (commitOps s ops).2.deletions)
    ∧ ((commitOps s ops).2.modifications.Disjoint (commitOps s ops).2.deletions)
    ∧ (∀ k ∈ (commitOps s ops).2.deletions, lookupKey s.committed k ≠ none)
    ∧ (∀ k, (k ∈ (commitOps s ops).2.insertions
        ∨ k ∈ (commitOps s ops).2.modifications
        ∨ k ∈ (commitOps s ops).2.deletions) → k ∈ touchedKeys ops) := by
  have hc : SortedKeys (applyOps s.committed ops) := applyOps_sorted ops hs
  have hm : ∀ k : String, _ := fun k =>
    diffMerge_mem k s.committed (applyOps s.committed ops) hs hc
  have hcs : (commitOps s ops).2
      = diffMerge s.committed (applyOps s.committed ops) := rfl
  refine ⟨?_, ?_, ?_, ?_, ?_⟩
  · intro k hki hkm
    rw [hcs] at hki hkm
    obtain ⟨hpn, -⟩ := (hm k).1.mp hki
    obtain ⟨vp, -, hvp, -⟩ := (hm k).2.1.mp hkm
    rw [hpn] at hvp
    cases hvp
  · intro k hki hkd
    rw [hcs] at hki hkd
    obtain ⟨-, hcn⟩ := (hm k).1.mp hki
    obtain ⟨-, hcd⟩ := (hm k).2.2.mp hkd
    exact hcn hcd
  · intro k hkm hkd
    rw [hcs] at hkm hkd
    obtain ⟨vp, vc, -, hvc, -⟩ := (hm k).2.1.mp hkm
    obtain ⟨-, hcd⟩ := (hm k).2.2.mp hkd
    rw [hvc] at hcd
    cases hcd
  · intro k hkd
    rw [hcs] at hkd
    exact ((hm k).2.2.mp hkd).1
  · intro k hk
    by_contra htouch
    have heq : lookupKey (applyOps s.committed ops) k = lookupKey s.committed k :=
      lookupKey_applyOps_untouched htouch
    rw [hcs] at hk
    rcases hk with hk | hk | hk
    · obtain ⟨hpn, hcn⟩ := (hm k).1.mp hk
      rw [heq, hpn] at hcn
      exact hcn rfl
    · obtain ⟨vp, vc, hvp, hvc, hne⟩ := (hm k).2.1.mp hk
      rw [heq, hvp] at hvc
      cases hvc
      exact hne rfl
    · obtain ⟨hpn, hcn⟩ := (hm k).2.2.mp hk
      rw [heq] at hcn
      exact hpn hcn

/-- C2 witness: a one-operation transaction on the empty store. -/
theorem C2_witness :
    SortedKeys (Store.mk [] none).committed
    ∧ ((commitOps ⟨[], none⟩ [Op.set "a" (DynamicValue.int64 1)]).2.insertions.Disjoint
        (commitOps ⟨[], none⟩ [Op.set "a" (DynamicValue.int64 1)]).2.modifications)
    ∧ ((commitOps ⟨[], none⟩ [Op.set "a" (DynamicValue.int64 1)]).2.insertions.Disjoint
        (commitOps ⟨[], none⟩ [Op.set "a" (DynamicValue.int64 1)]).2.deletions)
    ∧ ((commitOps ⟨[], none⟩ [Op.set "a" (DynamicValue.int64 1)]).2.modifications.Disjoint
        (commitOps ⟨[], none⟩ [Op.set "a" (DynamicValue.int64 1)]).2.deletions)
    ∧ (∀ k ∈ (commitOps ⟨[], none⟩ [Op.set "a" (DynamicValue.int64 1)]).2.deletions,
        lookupKey (Store.mk [] none).committed k ≠ none)
    ∧ (∀ k, (k ∈ (commitOps ⟨[], none⟩ [Op.set "a" (DynamicValue.int64 1)]).2.insertions
        ∨ k ∈ (commitOps ⟨[], none⟩ [Op.set "a" (DynamicValue.int64 1)]).2.modifications
        ∨ k ∈ (commitOps ⟨[], none⟩ [Op.set "a" (DynamicValue.int64 1)]).2.deletions) →
        k ∈ touchedKeys [Op.set "a" (DynamicValue.int64 1)]) :=
  ⟨List.Pairwise.nil,
   C2_changeSet_invariants ⟨[], none⟩ [Op.set "a" (DynamicValue.int64 1)]
     List.Pairwise.nil⟩

/-- C3: the ChangeSet of a committed transaction is the diff of the
post-commit snapshot against the pre-transaction snapshot (`commitOps` diffs
`s.committed` against the fold of the whole operation list, never an
intermediate state); consequently, for a key absent before the transaction,
`set(k, v)` followed by `erase(k)` in the same transaction commits to an
empty ChangeSet. -/
theorem C3_set_erase_same_txn_noop (s : Store) (k : String) (v : DynamicValue)
    (h : lookupKey s.committed k = none) :
    (commitOps s [Op.set k v, Op.erase k]).2 = ChangeSet.empty := by
  have happ : applyOps s.committed [Op.set k v, Op.erase k] = s.committed := by
    show eraseKey k (insertSorted k v s.committed) = s.committed
    rw [eraseKey_insertSorted, eraseKey_of_lookup_none h]
  show diffMerge s.committed (applyOps s.committed [Op.set k v, Op.erase k])
    = ChangeSet.empty
  rw [happ, diffMerge_self]

/-- C3 witness: `set("a",1)` then `erase("a")` on the empty store commits to
the empty ChangeSet. -/
theorem C3_witness :
    (commitOps ⟨[], none⟩
      [Op.set "a" (DynamicValue.int64 1), Op.erase "a"]).2 = ChangeSet.empty :=
  C3_set_erase_same_txn_noop ⟨[], none⟩ "a" (DynamicValue.int64 1) rfl

/-- C4: inside an open write transaction, `set(k, v)` succeeds and a
subsequent `get(k)` returns exactly `v`, for every key and every
DynamicValue (hence every tag). -/
theorem C4_set_get_roundtrip (s : Store) (w : List Entry) (k : String)
    (v : DynamicValue) (h : s.txn = some w) :
    ∃ s2, storeSet s k v = .ok s2 ∧ storeGet s2 k = .ok v := by
  refine ⟨{ s with txn := some (insertSorted k v w) }, ?_, ?_⟩
  · simp [storeSet, h]
  · simp [storeGet, Store.view, lookupKey_insertSorted_self]

/-- C4 witness: the round-trip instantiated once per DynamicValue tag, on a
store with an open write transaction. -/
theorem C4_witness :
    (∃ s2, storeSet ⟨[], some []⟩ "k" DynamicValue.null = .ok s2
      ∧ storeGet s2 "k" = .ok DynamicValue.null)
    ∧ (∃ s2, storeSet ⟨[], some []⟩ "k" (DynamicValue.bool true) = .ok s2
      ∧ storeGet s2 "k" = .ok (DynamicValue.bool true))
    ∧ (∃ s2, storeSet ⟨[], some []⟩ "k" (DynamicValue.int64 7) = .ok s2
      ∧ storeGet s2 "k" = .ok (DynamicValue.int64 7))
    ∧ (∃ s2, storeSet ⟨[], some []⟩ "k" (DynamicValue.double 13) = .ok s2
      ∧ storeGet s2 "k" = .ok (DynamicValue.double 13))
    ∧ (∃ s2, storeSet ⟨[], some []⟩ "k" (DynamicValue.string "x") = .ok s2
      ∧ storeGet s2 "k" = .ok (DynamicValue.string "x"))
    ∧ (∃ s2, storeSet ⟨[], some []⟩ "k" (DynamicValue.binary [1, 2]) = .ok s2
      ∧ storeGet s2 "k" = .ok (DynamicValue.binary [1, 2]))
    ∧ (∃ s2, storeSet ⟨[], some []⟩ "k" (DynamicValue.timestamp 3 4) = .ok s2
      ∧ storeGet s2 "k" = .ok (DynamicValue.timestamp 3 4))
    ∧ (∃ s2, storeSet ⟨[], some []⟩ "k" (DynamicValue.embeddedObjectRef 5) = .ok s2
      ∧ storeGet s2 "k" = .ok (DynamicValue.embeddedObjectRef 5))
    ∧ (∃ s2, storeSet ⟨[], some []⟩ "k" (DynamicValue.linkToObject 6) = .ok s2
      ∧ storeGet s2 "k" = .ok (DynamicValue.linkToObject 6)) :=
  ⟨C4_set_get_roundtrip _ [] _ _ rfl, C4_set_get_roundtrip _ [] _ _ rfl,
   C4_set_get_roundtrip _ [] _ _ rfl, C4_set_get_roundtrip _ [] _ _ rfl,
   C4_set_get_roundtrip _ [] _ _ rfl, C4_set_get_roundtrip _ [] _ _ rfl,
   C4_set_get_roundtrip _ [] _ _ rfl, C4_set_get_roundtrip _ [] _ _ rfl,
   C4_set_get_roundtrip _ [] _ _ rfl⟩

/-- C8: for a key absent from the current (open-transaction) snapshot,
`get` fails with the typed error `KeyNotFound` and `erase` fails with the
typed error `KeyNotFound`; neither returns a default value, and the failed
erase produces no successor store (in this state-passing embedding an
erroring operation yields no new state, so the store is unchanged). -/
theorem C8_absent_key_typed_errors (s : Store) (w : List Entry) (k : String)
    (hw : s.txn = some w) (h : lookupKey w k = none) :
    storeGet s k = .error .KeyNotFound
    ∧ storeErase s k = .error .KeyNotFound
    ∧ (∀ t : Store, storeErase s k ≠ .ok t) := by
  refine ⟨?_, ?_, ?_⟩
  · simp [storeGet, Store.view, hw, h]
  · simp [storeErase, hw, h]
  · intro t hcon
    rw [show storeErase s k = .error .KeyNotFound by simp [storeErase, hw, h]]
      at hcon
    cases hcon

/-- C8 witness: the key `"a"` is absent from a store whose open transaction
holds only `"b"`. -/
theorem C8_witness :
    storeGet ⟨[], some [("b", DynamicValue.null)]⟩ "a" = .error .KeyNotFound
    ∧ storeErase ⟨[], some [("b", DynamicValue.null)]⟩ "a"
        = .error .KeyNotFound
    ∧ (∀ t : Store, storeErase ⟨[], some [("b", DynamicValue.null)]⟩ "a"
        ≠ .ok t) :=
  C8_absent_key_typed_errors ⟨[], some [("b", DynamicValue.null)]⟩
    [("b", DynamicValue.null)] "a" rfl (by simp)

/-- C5: when a new ChangeSet is enqueued for an observer whose prior delivery
is still outstanding, the scheduler merges it into the pending one — union of
key-sets per category with deletions taking precedence over modifications —
and never queues a second delivery, so an observer never has more than one
pending delta. -/
theorem C5_pending_merge (p n : ChangeSet) (rest : List ChangeSet)
    (k : String) :
    enqueueChangeSet (p :: rest) n = [mergeChangeSets p n]
    ∧ (∀ q : List ChangeSet, (enqueueChangeSet q n).length = 1)
    ∧ (k ∈ (mergeChangeSets p n).insertions ↔
        k ∈ p.insertions ∨ k ∈ n.insertions)
    ∧ (k ∈ (mergeChangeSets p n).deletions ↔
        k ∈ p.deletions ∨ k ∈ n.deletions)
    ∧ (k ∈ (mergeChangeSets p n).modifications ↔
        (k ∈ p.modifications ∨ k ∈ n.modifications)
        ∧ k ∉ (mergeChangeSets p n).deletions)
    ∧ (k ∈ (mergeChangeSets p n).deletions →
        k ∉ (mergeChangeSets p n).modifications) := by
  refine ⟨rfl, ?_, ?_, ?_, ?_, ?_⟩
  · intro q
    cases q <;> rfl
  · exact mem_unionKeys _ _ k
  · exact mem_unionKeys _ _ k
  · simp [mergeChangeSets, List.mem_filter, mem_unionKeys]
  · intro hd hm
    have := (List.mem_filter.mp hm).2
    simp only [decide_eq_true_eq] at this
    exact this hd

/-- C6: the delivery pipeline hands a given observer the changes of
successive commits on the same collection strictly in commit order: after
any sequence of commit/deliver events, the delivered commit indices followed
by the pending ones are exactly `0, 1, …, nextIdx - 1`, and the delivered
indices are strictly increasing — no interleaving or reordering, regardless
of when each ChangeSet was computed relative to the others. -/
theorem C6_delivery_commit_order (es : List SchedEvent) :
    (schedRun SchedState.init es).deliveredIdxs
        ++ (schedRun SchedState.init es).pendingIdxs
      = List.range (schedRun SchedState.init es).nextIdx
    ∧ List.Pairwise (· < ·) (schedRun SchedState.init es).deliveredIdxs := by
  have h : schedInv (schedRun SchedState.init es) := schedRun_inv es rfl
  refine ⟨h, ?_⟩
  have hsub : List.Sublist (schedRun SchedState.init es).deliveredIdxs
      (List.range (schedRun SchedState.init es).nextIdx) := by
    rw [← h]
    exact List.sublist_append_left _ _
  exact (List.pairwise_lt_range _).sublist hsub

/-- C7: unregistering an observer token moves it to `Invalidated`
immediately, drops any computed-but-undelivered ChangeSet silently, and no
delivery ever occurs afterwards — in particular an observer unregistered
before any delivery receives zero deliveries for its token. -/
theorem C7_observer_cancellation (s : ObsState) (es : List ObsEvent) :
    (obsStep s .unregister).status = .Invalidated
    ∧ (obsStep s .unregister).pending = none
    ∧ (obsRun (obsStep s .unregister) es).delivered = s.delivered
    ∧ (s.delivered = [] →
        (obsRun (obsStep s .unregister) es).delivered = []) := by
  have h : obsStep s .unregister
      = (⟨.Invalidated, none, s.delivered⟩ : ObsState) := rfl
  rw [h, obsRun_invalidated]
  exact ⟨rfl, rfl, rfl, fun hd => hd⟩

/-- C7 witness: an observer with a pending ChangeSet is unregistered and the
delivery context then attempts a delivery; nothing is ever delivered. -/
theorem C7_witness :
    (obsRun (obsStep ⟨ObsStatus.Pending, some ⟨["a"], [], []⟩, []⟩
        ObsEvent.unregister) [ObsEvent.deliver]).delivered = [] :=
  (C7_observer_cancellation ⟨ObsStatus.Pending, some ⟨["a"], [], []⟩, []⟩
    [ObsEvent.deliver]).2.2.2 rfl

/-- C9: `IOCollectionAccessor::get` returns exactly the wrapped
`IOCollection`'s get, and `IOCollectionAccessor::set` invokes the wrapped
set with context, key and value passed through unchanged — the accessor adds
no transformation, caching or filtering. -/
theorem C9_accessor_passthrough {Ctx Val St : Type}
    (a : IOCollectionAccessor Ctx Val St) (st : St) (context : Ctx)
    (key_name : String) (value : Val) :
    a.get st context key_name = a.dictionary.getImpl st context key_name
    ∧ a.set st context key_name value
        = a.dictionary.setImpl st context key_name value :=
  ⟨rfl, rfl⟩

/-- C10: `Logger::get_level` maps "all" to `LoggerLevel.all` and "debug" to
`LoggerLevel.debug`, and fails with the message "Bad log level" on any
unrecognized level name instead of returning a default level. -/
theorem C10_get_level_spec (s : String) (h : s ∉ recognizedLevelNames) :
    get_level "all" = .ok .all
    ∧ get_level "debug" = .ok .debug
    ∧ get_level s = .error "Bad log level" := by
  refine ⟨by simp [get_level], by simp [get_level], ?_⟩
  simp only [recognizedLevelNames, List.mem_cons, List.not_mem_nil, or_false,
    not_or] at h
  obtain ⟨h1, h2, h3, h4, h5, h6, h7, h8, h9⟩ := h
  simp [get_level, h1, h2, h3, h4, h5, h6, h7, h8, h9]

/-- C10 witness: the test's inputs — "all", "debug" and the unrecognized
"coffeebabe". -/
theorem C10_witness :
    "coffeebabe" ∉ recognizedLevelNames
    ∧ (get_level "all" = .ok .all
      ∧ get_level "debug" = .ok .debug
      ∧ get_level "coffeebabe" = .error "Bad log level") :=
  ⟨by decide, C10_get_level_spec "coffeebabe" (by decide)⟩

end RealmDict
